/-
Verification of the growable double-ended array (`Vector<T>`) of
`src/datastruct/vec_struct.rs` against its specification.

The Rust struct owns a raw heap block of `capacity` physical slots and
tracks the live window through optional `front`/`back` physical indices
and a `length`.  We embed the state shallowly: the raw pointer together
with its heap block becomes `memory : Option (List (Option α))`, where
`none` models the null pointer, and an allocated block is the list of
its slots, a slot holding `none` while no element has ever been written
there.  Machine integers (`usize`) become `Nat`; the single place where
overflow matters (`capacity.checked_mul(2)`) is modelled by an explicit
comparison against a `usize_max` parameter.  Fallible operations return
`Except String` (a `panic!` becomes `.error`), recoverable misses return
`Option`.
-/
import Mathlib

set_option maxHeartbeats 1000000

namespace DsaSport

/-- State of the Rust `Vector<T>`: `pointer` plus its heap block are
modelled by `memory` (`none` = null pointer), the remaining fields are
the struct fields `front`, `back`, `length`, `capacity`. -/
structure Vector (α : Type) where
  memory : Option (List (Option α))
  front : Option Nat
  back : Option Nat
  length : Nat
  capacity : Nat
deriving DecidableEq, Repr

/-- `Vector::new`. -/
def Vector.new (α : Type) : Vector α :=
  ⟨none, none, none, 0, 0⟩

/-- `Vector::len`. -/
def Vector.len {α : Type} (v : Vector α) : Nat :=
  v.length

/-- `Vector::is_empty`. -/
def Vector.is_empty {α : Type} (v : Vector α) : Bool :=
  v.length == 0

/-- `Vector::push_back`.  `size` models `mem::size_of::<T>()` and
`usize_max` the largest value of `usize`, so that
`capacity.checked_mul(2)` returning `None` becomes
`usize_max < capacity * 2`.  The three branches mirror the source:
null pointer (first allocation of 4 slots), spare capacity (write at
`(back + 1) % capacity`), full (double, re-linearize, write at `length`). -/
def Vector.push_back {α : Type} (usize_max size : Nat) (v : Vector α)
    (element : α) : Except String (Vector α) :=
  if size = 0 then .error "Size of element must be non zero"
  else
    match v.memory with
    | none =>
        let vec_capacity := 4
        let buf := (List.replicate vec_capacity (none : Option α)).set 0 (some element)
        .ok ⟨some buf, some 0, some 0, v.length + 1, vec_capacity⟩
    | some buf =>
        if v.length < v.capacity then
          let next_index :=
            match v.back with
            | some back =>
                let n := back + 1
                if n < v.capacity then n else n % v.capacity
            | none => 0
          let new_front :=
            match v.front with
            | none => some 0
            | some f => some f
          .ok ⟨some (buf.set next_index (some element)), new_front,
               some next_index, v.length + 1, v.capacity⟩
        else
          if v.capacity * 2 ≤ usize_max then
            match v.front with
            | some front =>
                let new_capacity := v.capacity * 2
                let lin := if front = 0 then buf else buf.drop front ++ buf.take front
                let new_buf :=
                  (lin ++ List.replicate (new_capacity - v.capacity) (none : Option α)).set
                    v.length (some element)
                .ok ⟨some new_buf, some 0, some v.length, v.length + 1, new_capacity⟩
            | none => .ok v
          else .error "usize vector capacity reached its limit"

/-- `Vector::pop_front`.  A heap read `ptr.add(i).read()` becomes
`buf.getD i none`. -/
def Vector.pop_front {α : Type} (v : Vector α) : Option α × Vector α :=
  match v.memory with
  | none => (none, v)
  | some buf =>
      if v.length > 0 then
        match v.front with
        | some front_ixd =>
            (buf.getD front_ixd none,
             { v with front := some ((front_ixd + 1) % v.capacity),
                      length := v.length - 1 })
        | none => (none, v)
      else (none, v)

/-- `Vector::pop_back`.  `back_ixd.checked_sub(1)` and
`capacity.checked_sub(1)` are expanded; when the length reaches 0 both
cursors are reset to `none`, mirroring the source. -/
def Vector.pop_back {α : Type} (v : Vector α) : Option α × Vector α :=
  match v.memory with
  | none => (none, v)
  | some buf =>
      if v.length > 0 then
        match v.back with
        | some back_ixd =>
            let item := buf.getD back_ixd none
            let new_back :=
              if back_ixd > 0 then some (back_ixd - 1)
              else if 1 ≤ v.capacity then some (v.capacity - 1) else none
            if v.length - 1 = 0 then
              (item, { v with front := none, back := none, length := v.length - 1 })
            else
              (item, { v with back := new_back, length := v.length - 1 })
        | none => (none, v)
      else (none, v)

/-- `Vector::get`. -/
def Vector.get {α : Type} (v : Vector α) (index : Nat) : Option α :=
  match v.memory with
  | none => none
  | some buf =>
      if v.length > 0 ∧ index < v.length then
        match v.front with
        | some front_ixd => buf.getD ((front_ixd + index) % v.capacity) none
        | none => none
      else none

/-- The `Index` impl: `self.get(index).expect("Out of bounds access")`,
with the panic modelled as `.error`. -/
def Vector.index {α : Type} (v : Vector α) (i : Nat) : Except String α :=
  match v.get i with
  | some r => .ok r
  | none => .error "Out of bounds access"

/-- One mutating operation on a vector. -/
inductive Op (α : Type) where
  | push_back (x : α)
  | pop_front
  | pop_back
deriving DecidableEq, Repr

/-- Run one operation (pops always succeed; a push may be fatal). -/
def Vector.run_op {α : Type} (usize_max size : Nat) (v : Vector α) :
    Op α → Except String (Vector α)
  | .push_back x => v.push_back usize_max size x
  | .pop_front => .ok (v.pop_front).2
  | .pop_back => .ok (v.pop_back).2

/-- Run a list of operations left to right. -/
def Vector.run_ops {α : Type} (usize_max size : Nat) (v : Vector α) :
    List (Op α) → Except String (Vector α)
  | [] => .ok v
  | op :: ops =>
      match v.run_op usize_max size op with
      | .ok v' => v'.run_ops usize_max size ops
      | .error e => .error e

/-- `usize::MAX` on a 64-bit platform. -/
def usizeMax : Nat := 2 ^ 64 - 1

/-- States reachable from `Vector::new` by the three mutating operations
(for a non-zero-sized element type, on a 64-bit platform). -/
def Vector.Reachable {α : Type} (v : Vector α) : Prop :=
  ∃ ops : List (Op α), Vector.run_ops usizeMax 1 (Vector.new α) ops = .ok v

/-- Iterated `pop_front`: the list of returned values and the final state. -/
def Vector.pop_front_run {α : Type} (v : Vector α) : Nat → List (Option α) × Vector α
  | 0 => ([], v)
  | n + 1 =>
      let p := v.pop_front
      let q := p.2.pop_front_run n
      (p.1 :: q.1, q.2)

/-- Iterated `pop_back`: the list of returned values and the final state. -/
def Vector.pop_back_run {α : Type} (v : Vector α) : Nat → List (Option α) × Vector α
  | 0 => ([], v)
  | n + 1 =>
      let p := v.pop_back
      let q := p.2.pop_back_run n
      (p.1 :: q.1, q.2)

/-- Reference model of one operation on the logical (front-to-back)
contents: append at the back, drop at the front, drop at the back. -/
def specStep {α : Type} (l : List α) : Op α → List α
  | .push_back x => l ++ [x]
  | .pop_front => l.tail
  | .pop_back => l.dropLast

/-- Reference model of a whole operation sequence. -/
def specRun {α : Type} (l : List α) (ops : List (Op α)) : List α :=
  ops.foldl specStep l

/-- Coupling invariant between a concrete vector state and its logical
contents `l`: lengths agree, the capacity is 0 or of the form `4 * 2 ^ k`,
the pointer is null exactly when the capacity is 0, the block has
`capacity` slots, the cursors are both `none` (only with length 0) or
both in range with `back + 1 ≡ front + length (mod capacity)`, and slot
`(front + i) % capacity` holds the `i`-th logical element. -/
structure Coupled {α : Type} (v : Vector α) (l : List α) : Prop where
  len_eq : v.length = l.length
  len_le : v.length ≤ v.capacity
  cap_shape : v.capacity = 0 ∨ ∃ k, v.capacity = 4 * 2 ^ k
  mem_null : v.memory = none ↔ v.capacity = 0
  buf_len : ∀ buf, v.memory = some buf → buf.length = v.capacity
  cursors : (v.front = none ∧ v.back = none ∧ v.length = 0) ∨
      (∃ f b, v.front = some f ∧ v.back = some b ∧ f < v.capacity ∧ b < v.capacity ∧
        (b + 1) % v.capacity = (f + v.length) % v.capacity)
  content : ∀ f buf, v.front = some f → v.memory = some buf →
      ∀ i, i < l.length → buf.getD ((f + i) % v.capacity) none = l[i]?

/-- Reading a just-written slot. -/
theorem getD_set_self {α : Type} (l : List (Option α)) (i : Nat) (a : Option α)
    (h : i < l.length) : (l.set i a).getD i none = a := by
  simp [List.getD_eq_getElem?_getD, List.getElem?_set_eq_of_lt a h]

/-- Reading a slot other than the one just written. -/
theorem getD_set_ne {α : Type} (l : List (Option α)) {i j : Nat} (a : Option α)
    (h : i ≠ j) : (l.set i a).getD j none = l.getD j none := by
  simp [List.getD_eq_getElem?_getD, List.getElem?_set_ne h]

/-- Circular offsets from a common base are injective below the modulus. -/
theorem mod_shift_inj {f i j c : Nat} (hi : i < c) (hj : j < c)
    (h : (f + i) % c = (f + j) % c) : i = j := by
  have h2 : i ≡ j [MOD c] := Nat.ModEq.add_left_cancel' f h
  have h3 : i % c = j % c := h2
  rwa [Nat.mod_eq_of_lt hi, Nat.mod_eq_of_lt hj] at h3

/-- A sum below twice the modulus reduces by a single subtraction. -/
theorem mod_sub_of_lt_two_mul {a c : Nat} (h1 : c ≤ a) (h2 : a < 2 * c) :
    a % c = a - c := by
  rw [Nat.mod_eq_sub_mod h1]
  exact Nat.mod_eq_of_lt (by omega)

/-- The re-linearized block (tail segment then head segment, as copied by
the growth path of `push_back`) read at `i` is the old block read at
`(front + i) % capacity`. -/
theorem lin_getD {α : Type} (buf : List (Option α)) (f : Nat) (hf : f < buf.length)
    (i : Nat) (hi : i < buf.length) :
    (if f = 0 then buf else buf.drop f ++ buf.take f).getD i none
      = buf.getD ((f + i) % buf.length) none := by
  by_cases h0 : f = 0
  · subst h0
    simp [Nat.mod_eq_of_lt hi]
  · rw [if_neg h0]
    simp only [List.getD_eq_getElem?_getD]
    by_cases hlt : i < buf.length - f
    · rw [List.getElem?_append_left (by simp [List.length_drop]; omega)]
      rw [List.getElem?_drop]
      rw [Nat.mod_eq_of_lt (by omega)]
    · push_neg at hlt
      have hd : (buf.drop f).length = buf.length - f := List.length_drop f buf
      rw [List.getElem?_append_right (by rw [hd]; omega)]
      rw [List.getElem?_take_of_lt (by rw [hd]; omega)]
      rw [mod_sub_of_lt_two_mul (by omega) (by omega)]
      rw [hd]
      have hix : i - (buf.length - f) = f + i - buf.length := by omega
      rw [hix]

/-- A fresh vector is coupled to the empty logical contents. -/
theorem coupled_new (α : Type) : Coupled (Vector.new α) [] := by
  refine ⟨rfl, le_refl 0, Or.inl rfl, by simp [Vector.new], ?_, ?_, ?_⟩
  · intro buf hbuf
    simp [Vector.new] at hbuf
  · exact Or.inl ⟨rfl, rfl, rfl⟩
  · intro f buf hf hbuf
    simp [Vector.new] at hbuf

/-- `pop_front` returns the head of the logical contents and preserves
the coupling with the tail. -/
theorem coupled_pop_front {α : Type} {v : Vector α} {l : List α} (h : Coupled v l) :
    (v.pop_front).1 = l.head? ∧ Coupled (v.pop_front).2 l.tail := by
  obtain ⟨mem, fr, bk, len, cap⟩ := v
  cases mem with
  | none =>
      have hcap : cap = 0 := h.mem_null.mp rfl
      have hlen : len = 0 := by have := h.len_le; simp at this ⊢; omega
      have hl : l = [] := by
        have := h.len_eq
        simp [hlen] at this
        exact (List.length_eq_zero.mp this.symm)
      subst hl
      exact ⟨rfl, h⟩
  | some buf =>
      by_cases hlen : 0 < len
      · rcases h.cursors with ⟨_, _, hl0⟩ | ⟨f, b, hf, hb, hfc, hbc, hrel⟩
        · simp at hl0; omega
        · simp at hf
          subst hf
          have hcap0 : 0 < cap := Nat.lt_of_le_of_lt (Nat.zero_le f) hfc
          have hlel : len = l.length := h.len_eq
          simp only [Vector.pop_front, if_pos hlen]
          constructor
          · have hc := h.content f buf rfl rfl 0 (by omega)
            rw [Nat.add_zero, Nat.mod_eq_of_lt hfc] at hc
            rw [hc, List.head?_eq_getElem?]
          · refine ⟨?_, ?_, h.cap_shape, ?_, ?_, ?_, ?_⟩
            · simp [List.length_tail]; omega
            · have := h.len_le; simp at this ⊢; omega
            · simp [hcap0.ne']
            · intro buf' hbuf'
              simp at hbuf'
              subst hbuf'
              exact h.buf_len buf rfl
            · refine Or.inr ⟨(f + 1) % cap, b, rfl, hb, Nat.mod_lt _ hcap0, hbc, ?_⟩
              simp only [Nat.mod_add_mod]
              have hstep : f + 1 + (len - 1) = f + len := by omega
              simp only [hstep]
              exact hrel
            · intro f' buf' hf' hbuf'
              simp at hf' hbuf'
              subst hf'
              subst hbuf'
              intro i hi
              simp [List.length_tail] at hi
              rw [Nat.mod_add_mod]
              have hstep : f + 1 + i = f + (i + 1) := by omega
              rw [hstep, List.getElem?_tail]
              exact h.content f buf rfl rfl (i + 1) (by omega)
      · have hl0 : len = 0 := by omega
        have hl : l = [] := by
          have := h.len_eq
          simp [hl0] at this
          exact (List.length_eq_zero.mp this.symm)
        subst hl
        have : Vector.pop_front ⟨some buf, fr, bk, len, cap⟩
            = (none, ⟨some buf, fr, bk, len, cap⟩) := by
          simp only [Vector.pop_front, if_neg hlen]
        rw [this]
        exact ⟨rfl, h⟩

/-- `pop_front` never touches the allocation, the capacity or `back`. -/
theorem pop_front_frame {α : Type} (v : Vector α) :
    (v.pop_front).2.memory = v.memory ∧ (v.pop_front).2.capacity = v.capacity ∧
    (v.pop_front).2.back = v.back := by
  obtain ⟨mem, fr, bk, len, cap⟩ := v
  cases mem with
  | none => exact ⟨rfl, rfl, rfl⟩
  | some buf =>
      by_cases h : 0 < len
      · cases fr <;> simp [Vector.pop_front, h]
      · simp [Vector.pop_front, h]

/-- `pop_back` never touches the allocation or the capacity. -/
theorem pop_back_frame {α : Type} (v : Vector α) :
    (v.pop_back).2.memory = v.memory ∧ (v.pop_back).2.capacity = v.capacity := by
  obtain ⟨mem, fr, bk, len, cap⟩ := v
  cases mem with
  | none => exact ⟨rfl, rfl⟩
  | some buf =>
      by_cases h : 0 < len
      · cases bk with
        | none => simp [Vector.pop_back, h]
        | some b =>
            by_cases h2 : len - 1 = 0 <;> simp [Vector.pop_back, h, h2]
      · simp [Vector.pop_back, h]

/-- A pop on an empty vector is a recoverable no-op. -/
theorem pop_back_of_length_zero {α : Type} (v : Vector α) (h : v.length = 0) :
    v.pop_back = (none, v) := by
  obtain ⟨mem, fr, bk, len, cap⟩ := v
  simp at h
  subst h
  cases mem with
  | none => rfl
  | some buf => simp [Vector.pop_back]

/-- A front pop on an empty vector returns the recoverable miss. -/
theorem pop_front_of_length_zero {α : Type} (v : Vector α) (h : v.length = 0) :
    v.pop_front = (none, v) := by
  obtain ⟨mem, fr, bk, len, cap⟩ := v
  simp at h
  subst h
  cases mem with
  | none => rfl
  | some buf => simp [Vector.pop_front]

/-- `pop_back` returns the last logical element, preserves the coupling
with `dropLast`, and — when it actually removes the last live element —
resets both cursors to `none`. -/
theorem coupled_pop_back {α : Type} {v : Vector α} {l : List α} (h : Coupled v l) :
    (v.pop_back).1 = l.getLast? ∧ Coupled (v.pop_back).2 l.dropLast ∧
    (0 < v.length → (v.pop_back).2.length = 0 →
      (v.pop_back).2.front = none ∧ (v.pop_back).2.back = none) := by
  obtain ⟨mem, fr, bk, len, cap⟩ := v
  cases mem with
  | none =>
      have hlen : len = 0 := by have := h.len_le; have := h.mem_null.mp rfl; simp_all
      have hl : l = [] := by
        have := h.len_eq
        simp [hlen] at this
        exact (List.length_eq_zero.mp this.symm)
      subst hl
      refine ⟨rfl, h, ?_⟩
      intro h0
      simp [hlen] at h0
  | some buf =>
      by_cases hlen : 0 < len
      · rcases h.cursors with ⟨_, _, hl0⟩ | ⟨f, b, hf, hb, hfc, hbc, hrel⟩
        · simp at hl0; omega
        · simp at hf hb
          subst hf
          subst hb
          simp only at hfc hbc hrel
          have hcap0 : 0 < cap := Nat.lt_of_le_of_lt (Nat.zero_le f) hfc
          have hlel : len = l.length := h.len_eq
          have hstep : f + (len - 1) + 1 = f + len := by omega
          have hbmod : b ≡ f + (len - 1) [MOD cap] := by
            refine Nat.ModEq.add_right_cancel' 1 ?_
            show (b + 1) % cap = (f + (len - 1) + 1) % cap
            rw [hstep]
            exact hrel
          have hbval : b = (f + (len - 1)) % cap := by
            have h3 : b % cap = (f + (len - 1)) % cap := hbmod
            rwa [Nat.mod_eq_of_lt hbc] at h3
          have hitem : buf.getD b none = l[len - 1]? := by
            rw [hbval]
            exact h.content f buf rfl rfl (len - 1) (by omega)
          have hlast : l.getLast? = l[len - 1]? := by
            rw [List.getLast?_eq_getElem?, ← hlel]
          by_cases hz : len - 1 = 0
          · simp only [Vector.pop_back, if_pos hlen, if_pos hz]
            refine ⟨by rw [hitem, hlast], ?_, ?_⟩
            · refine ⟨?_, ?_, h.cap_shape, ?_, ?_, ?_, ?_⟩
              · simp [List.length_dropLast]; omega
              · have := h.len_le
                simp at this ⊢
                omega
              · simp [hcap0.ne']
              · intro buf' hbuf'
                simp at hbuf'
                subst hbuf'
                exact h.buf_len buf rfl
              · refine Or.inl ⟨rfl, rfl, ?_⟩
                exact hz
              · intro f' buf' hf' hbuf'
                simp at hf'
            · intro _ _
              exact ⟨trivial, trivial⟩
          · simp only [Vector.pop_back, if_pos hlen, if_neg hz]
            have hnb : (if b > 0 then some (b - 1)
                else if 1 ≤ cap then some (cap - 1) else none)
                = some (if b > 0 then b - 1 else cap - 1) := by
              by_cases hbpos : b > 0
              · simp [hbpos]
              · rw [if_neg hbpos, if_neg hbpos, if_pos (show 1 ≤ cap by omega)]
            refine ⟨by rw [hitem, hlast], ?_, ?_⟩
            · refine ⟨?_, ?_, h.cap_shape, ?_, ?_, ?_, ?_⟩
              · simp [List.length_dropLast]; omega
              · have := h.len_le
                simp at this ⊢
                omega
              · simp [hcap0.ne']
              · intro buf' hbuf'
                simp at hbuf'
                subst hbuf'
                exact h.buf_len buf rfl
              · refine Or.inr ⟨f, if b > 0 then b - 1 else cap - 1, rfl, ?_, hfc, ?_, ?_⟩
                · show (if b > 0 then some (b - 1)
                    else if 1 ≤ cap then some (cap - 1) else none)
                    = some (if b > 0 then b - 1 else cap - 1)
                  exact hnb
                · show (if b > 0 then b - 1 else cap - 1) < cap
                  by_cases hbpos : b > 0
                  · rw [if_pos hbpos]; omega
                  · rw [if_neg hbpos]; omega
                · show ((if b > 0 then b - 1 else cap - 1) + 1) % cap
                    = (f + (len - 1)) % cap
                  by_cases hbpos : b > 0
                  · rw [if_pos hbpos]
                    have hb1 : b - 1 + 1 = b := by omega
                    rw [hb1, Nat.mod_eq_of_lt hbc]
                    exact hbval
                  · rw [if_neg hbpos]
                    have hc1 : cap - 1 + 1 = cap := by omega
                    rw [hc1, Nat.mod_self]
                    have hb0 : b = 0 := by omega
                    rw [← hb0, ← Nat.mod_eq_of_lt hbc]
                    rw [Nat.mod_eq_of_lt hbc]
                    exact hbval
              · intro f' buf' hf' hbuf'
                simp at hf' hbuf'
                subst hf'
                subst hbuf'
                intro i hi
                simp [List.length_dropLast] at hi
                rw [List.dropLast_eq_take, List.getElem?_take_of_lt (by omega)]
                exact h.content f buf rfl rfl i (by omega)
            · intro _ hcontr
              exact absurd hcontr hz
      · have hl0 : len = 0 := by omega
        have hl : l = [] := by
          have := h.len_eq
          simp [hl0] at this
          exact (List.length_eq_zero.mp this.symm)
        subst hl
        rw [pop_back_of_length_zero _ (by simp [hl0])]
        refine ⟨rfl, h, ?_⟩
        intro h0
        simp [hl0] at h0

/-- `getD` through an append, left part. -/
theorem getD_append_left {α : Type} (l1 l2 : List (Option α)) (i : Nat)
    (h : i < l1.length) : (l1 ++ l2).getD i none = l1.getD i none := by
  simp [List.getD_eq_getElem?_getD, List.getElem?_append_left h]

/-- A successful `push_back` preserves the coupling, appending the new
element at the back of the logical contents. -/
theorem coupled_push {α : Type} {v : Vector α} {l : List α} {umax sz : Nat} {x : α}
    {v' : Vector α} (h : Coupled v l) (hp : v.push_back umax sz x = .ok v') :
    Coupled v' (l ++ [x]) := by
  obtain ⟨mem, fr, bk, len, cap⟩ := v
  by_cases hsz : sz = 0
  · simp [Vector.push_back, hsz] at hp
  · cases mem with
    | none =>
        have hcap : cap = 0 := h.mem_null.mp rfl
        have hlen : len = 0 := by have := h.len_le; simp at this; omega
        have hl : l = [] := by
          have := h.len_eq
          simp [hlen] at this
          exact (List.length_eq_zero.mp this.symm)
        subst hl
        subst hlen
        simp only [Vector.push_back, if_neg hsz] at hp
        injection hp with hv
        subst hv
        refine ⟨rfl, by show 0 + 1 ≤ 4; omega, Or.inr ⟨0, by norm_num⟩, by simp, ?_, ?_, ?_⟩
        · intro buf' hbuf'
          simp at hbuf'
          subst hbuf'
          simp
        · exact Or.inr ⟨0, 0, rfl, rfl, by norm_num, by norm_num, rfl⟩
        · intro f' buf' hf' hbuf'
          simp at hf' hbuf'
          subst hf'
          subst hbuf'
          intro i hi
          simp at hi
          subst hi
          show ((List.replicate 4 none).set 0 (some x)).getD ((0 + 0) % 4) none = ([] ++ [x])[0]?
          rw [show (0 + 0) % 4 = 0 from rfl, getD_set_self _ _ _ (by simp)]
          rfl
    | some buf =>
        have hcap0 : 0 < cap := by
          rcases Nat.eq_zero_or_pos cap with hc | hc
          · exact absurd (h.mem_null.mpr hc) (by simp)
          · exact hc
        have hbl : buf.length = cap := h.buf_len buf rfl
        have hlel : len = l.length := h.len_eq
        by_cases hlt : len < cap
        · rcases h.cursors with ⟨hf, hb, hl0⟩ | ⟨f, b, hf, hb, hfc, hbc, hrel⟩
          · simp at hf hb hl0
            subst hf
            subst hb
            have hl : l = [] := by
              have := hlel
              simp [hl0] at this
              exact (List.length_eq_zero.mp this.symm)
            subst hl
            subst hl0
            simp only [Vector.push_back, if_neg hsz, if_pos hlt] at hp
            injection hp with hv
            subst hv
            refine ⟨rfl, by show 0 + 1 ≤ cap; omega, h.cap_shape, by simp [hcap0.ne'], ?_, ?_, ?_⟩
            · intro buf' hbuf'
              simp at hbuf'
              subst hbuf'
              simp [hbl]
            · exact Or.inr ⟨0, 0, rfl, rfl, hcap0, hcap0, rfl⟩
            · intro f' buf' hf' hbuf'
              simp at hf' hbuf'
              subst hf'
              subst hbuf'
              intro i hi
              simp at hi
              subst hi
              show (buf.set 0 (some x)).getD ((0 + 0) % cap) none = ([] ++ [x])[0]?
              rw [show (0 + 0) % cap = 0 % cap from rfl, Nat.zero_mod,
                getD_set_self _ _ _ (by omega)]
              rfl
          · simp at hf hb
            subst hf
            subst hb
            simp only at hfc hbc hrel
            simp only [Vector.push_back, if_neg hsz, if_pos hlt] at hp
            have hni : (if b + 1 < cap then b + 1 else (b + 1) % cap) = (b + 1) % cap := by
              by_cases hc : b + 1 < cap
              · rw [if_pos hc, Nat.mod_eq_of_lt hc]
              · rw [if_neg hc]
            rw [hni] at hp
            injection hp with hv
            subst hv
            have hnc : (b + 1) % cap < cap := Nat.mod_lt _ hcap0
            refine ⟨by simp [hlel], by show len + 1 ≤ cap; omega, h.cap_shape,
              by simp [hcap0.ne'], ?_, ?_, ?_⟩
            · intro buf' hbuf'
              simp at hbuf'
              subst hbuf'
              simp [hbl]
            · refine Or.inr ⟨f, (b + 1) % cap, rfl, rfl, hfc, hnc, ?_⟩
              show ((b + 1) % cap + 1) % cap = (f + (len + 1)) % cap
              rw [Nat.mod_add_mod]
              have harr : f + (len + 1) = f + len + 1 := by omega
              rw [harr]
              exact Nat.ModEq.add_right 1 hrel
            · intro f' buf' hf' hbuf'
              simp at hf' hbuf'
              subst hf'
              subst hbuf'
              intro i hi
              simp at hi
              show (buf.set ((b + 1) % cap) (some x)).getD ((f + i) % cap) none
                = (l ++ [x])[i]?
              by_cases hil : i < l.length
              · rw [List.getElem?_append_left hil]
                have hne : (b + 1) % cap ≠ (f + i) % cap := by
                  rw [hrel]
                  intro hcontr
                  have := mod_shift_inj (by omega) (by omega) hcontr
                  omega
                rw [getD_set_ne _ _ hne]
                exact h.content f buf rfl rfl i hil
              · have hix : i = l.length := by omega
                subst hix
                rw [List.getElem?_concat_length, ← hlel, ← hrel,
                  getD_set_self _ _ _ (by rw [hbl]; exact hnc)]
        · have hlc : len = cap := le_antisymm h.len_le (not_lt.mp hlt)
          rcases h.cursors with ⟨hf, hb, hl0⟩ | ⟨f, b, hf, hb, hfc, hbc, hrel⟩
          · simp at hl0; omega
          · simp at hf hb
            subst hf
            subst hb
            simp only at hfc hbc hrel
            simp only [Vector.push_back, if_neg hsz, if_neg hlt] at hp
            by_cases hov : cap * 2 ≤ umax
            · rw [if_pos hov] at hp
              injection hp with hv
              subst hv
              have hlinlen : (if f = 0 then buf else buf.drop f ++ buf.take f).length = cap := by
                by_cases h0 : f = 0
                · rw [if_pos h0, hbl]
                · rw [if_neg h0]
                  simp [hbl]
                  omega
              have hlin : ∀ j, j < cap →
                  (if f = 0 then buf else buf.drop f ++ buf.take f).getD j none
                    = buf.getD ((f + j) % cap) none := by
                intro j hj
                have := lin_getD buf f (by rw [hbl]; exact hfc) j (by rw [hbl]; exact hj)
                rwa [hbl] at this
              have hnewlen :
                  (((if f = 0 then buf else buf.drop f ++ buf.take f)
                    ++ List.replicate (cap * 2 - cap) none).set len (some x)).length
                    = cap * 2 := by
                simp [List.length_append, hlinlen]
                omega
              refine ⟨by simp [hlel], ?_, ?_, ?_, ?_, ?_, ?_⟩
              · show len + 1 ≤ cap * 2
                omega
              · show cap * 2 = 0 ∨ ∃ k, cap * 2 = 4 * 2 ^ k
                rcases h.cap_shape with hc | ⟨k, hk⟩
                · simp only at hc; omega
                · simp only at hk
                  refine Or.inr ⟨k + 1, ?_⟩
                  rw [hk, pow_succ]
                  ring
              · constructor
                · intro hcontr
                  simp at hcontr
                · intro hc
                  exact absurd (show cap * 2 = 0 from hc) (by omega)
              · intro buf' hbuf'
                simp only [Option.some.injEq] at hbuf'
                subst hbuf'
                show _ = cap * 2
                exact hnewlen
              · refine Or.inr ⟨0, len, rfl, rfl, show 0 < cap * 2 by omega,
                  show len < cap * 2 by omega, ?_⟩
                show (len + 1) % (cap * 2) = (0 + (len + 1)) % (cap * 2)
                rw [Nat.zero_add]
              · intro f' buf' hf' hbuf'
                simp only [Option.some.injEq] at hf' hbuf'
                subst hf'
                subst hbuf'
                intro i hi
                simp at hi
                show (((if f = 0 then buf else buf.drop f ++ buf.take f)
                    ++ List.replicate (cap * 2 - cap) none).set len (some x)).getD
                    ((0 + i) % (cap * 2)) none = (l ++ [x])[i]?
                have hi2cap : i < cap * 2 := by omega
                rw [Nat.zero_add, Nat.mod_eq_of_lt hi2cap]
                by_cases hil : i < l.length
                · rw [List.getElem?_append_left hil]
                  rw [getD_set_ne _ _ (by omega)]
                  rw [getD_append_left _ _ _ (by rw [hlinlen]; omega)]
                  rw [hlin i (by omega)]
                  exact h.content f buf rfl rfl i hil
                · have hix : i = l.length := by omega
                  subst hix
                  rw [List.getElem?_concat_length, ← hlel,
                    getD_set_self _ _ _
                      (by rw [List.length_append, hlinlen, List.length_replicate]; omega)]
            · rw [if_neg hov] at hp
              simp at hp

/-- `get` reads the `i`-th logical element under the coupling. -/
theorem coupled_get {α : Type} {v : Vector α} {l : List α} (h : Coupled v l)
    (i : Nat) (hi : i < v.length) : v.get i = l[i]? := by
  obtain ⟨mem, fr, bk, len, cap⟩ := v
  simp only at hi
  have hlen : 0 < len := by omega
  have hlel : len = l.length := h.len_eq
  rcases h.cursors with ⟨hf, hb, hl0⟩ | ⟨f, b, hf, hb, hfc, hbc, hrel⟩
  · simp at hl0; omega
  · simp at hf hb
    subst hf
    subst hb
    simp only at hfc hbc
    have hcap0 : 0 < cap := Nat.lt_of_le_of_lt (Nat.zero_le f) hfc
    cases mem with
    | none =>
        have hc0 : cap = 0 := h.mem_null.mp rfl
        exact absurd hc0 (by omega)
    | some buf =>
        simp only [Vector.get]
        rw [if_pos ⟨hlen, hi⟩]
        exact h.content f buf rfl rfl i (by omega)

/-- `get` out of range is the recoverable miss, on any state. -/
theorem get_oob {α : Type} (v : Vector α) (i : Nat) (hi : v.length ≤ i) :
    v.get i = none := by
  obtain ⟨mem, fr, bk, len, cap⟩ := v
  simp only at hi
  cases mem with
  | none => rfl
  | some buf =>
      have hc : ¬(len > 0 ∧ i < len) := by rintro ⟨h1, h2⟩; omega
      simp only [Vector.get]
      rw [if_neg hc]

/-- One step of the simulation. -/
theorem coupled_run_op {α : Type} {v : Vector α} {l : List α} {umax sz : Nat}
    {op : Op α} {v' : Vector α} (h : Coupled v l)
    (hr : v.run_op umax sz op = .ok v') : Coupled v' (specStep l op) := by
  cases op with
  | push_back x => exact coupled_push h hr
  | pop_front =>
      simp only [Vector.run_op] at hr
      injection hr with hv
      subst hv
      exact (coupled_pop_front h).2
  | pop_back =>
      simp only [Vector.run_op] at hr
      injection hr with hv
      subst hv
      exact (coupled_pop_back h).2.1

/-- The simulation over a whole operation sequence. -/
theorem coupled_run_ops {α : Type} {umax sz : Nat} (ops : List (Op α)) :
    ∀ (v : Vector α) (l : List α) (v' : Vector α), Coupled v l →
      Vector.run_ops umax sz v ops = .ok v' → Coupled v' (specRun l ops) := by
  induction ops with
  | nil =>
      intro v l v' h hr
      simp only [Vector.run_ops] at hr
      injection hr with hv
      subst hv
      exact h
  | cons op ops ih =>
      intro v l v' h hr
      simp only [Vector.run_ops] at hr
      cases hop : v.run_op umax sz op with
      | error e => rw [hop] at hr; simp at hr
      | ok w =>
          rw [hop] at hr
          exact ih w (specStep l op) v' (coupled_run_op h hop) hr

/-- Every reachable state is coupled to some logical contents. -/
theorem reachable_coupled {α : Type} {v : Vector α} (h : v.Reachable) :
    ∃ l : List α, Coupled v l := by
  obtain ⟨ops, hops⟩ := h
  exact ⟨specRun [] ops, coupled_run_ops ops _ [] v (coupled_new α) hops⟩

/-- Running only pushes appends the pushed elements in order. -/
theorem specRun_pushes {α : Type} (xs : List α) :
    ∀ l : List α, specRun l (xs.map Op.push_back) = l ++ xs := by
  induction xs with
  | nil => intro l; simp [specRun]
  | cons x xs ih =>
      intro l
      show specRun (specStep l (.push_back x)) (xs.map Op.push_back) = l ++ (x :: xs)
      rw [ih (specStep l (.push_back x))]
      simp [specStep]

/-- Effect of one `push_back` on `length` and `capacity`: first
allocation jumps to 4 slots, a push with spare room keeps the capacity,
a push on a full vector doubles it. -/
theorem push_cap_step {α : Type} {v : Vector α} {l : List α} {umax sz : Nat}
    {x : α} {v' : Vector α} (h : Coupled v l) (hp : v.push_back umax sz x = .ok v') :
    v'.length = v.length + 1 ∧
    ((v.capacity = 0 ∧ v'.capacity = 4) ∨
     (v.length < v.capacity ∧ v'.capacity = v.capacity) ∨
     (v.length = v.capacity ∧ 0 < v.capacity ∧ v'.capacity = v.capacity * 2)) := by
  obtain ⟨mem, fr, bk, len, cap⟩ := v
  by_cases hsz : sz = 0
  · simp [Vector.push_back, hsz] at hp
  · cases mem with
    | none =>
        have hcap : cap = 0 := h.mem_null.mp rfl
        simp only [Vector.push_back, if_neg hsz] at hp
        injection hp with hv
        subst hv
        exact ⟨rfl, Or.inl ⟨hcap, rfl⟩⟩
    | some buf =>
        have hcap0 : 0 < cap := by
          rcases Nat.eq_zero_or_pos cap with hc | hc
          · exact absurd (h.mem_null.mpr hc) (by simp)
          · exact hc
        by_cases hlt : len < cap
        · simp only [Vector.push_back, if_neg hsz, if_pos hlt] at hp
          injection hp with hv
          subst hv
          exact ⟨rfl, Or.inr (Or.inl ⟨hlt, rfl⟩)⟩
        · have hlc : len = cap := le_antisymm h.len_le (not_lt.mp hlt)
          rcases h.cursors with ⟨hf, hb, hl0⟩ | ⟨f, b, hf, hb, hfc, hbc, hrel⟩
          · simp at hl0; omega
          · simp at hf hb
            subst hf
            subst hb
            simp only [Vector.push_back, if_neg hsz, if_neg hlt] at hp
            by_cases hov : cap * 2 ≤ umax
            · rw [if_pos hov] at hp
              injection hp with hv
              subst hv
              exact ⟨rfl, Or.inr (Or.inr ⟨hlc, hcap0, rfl⟩)⟩
            · rw [if_neg hov] at hp
              simp at hp

/-- Along a pure push sequence, the capacity stays the least chain value
(`0`, then `4`, then doubling) at or above the length. -/
theorem push_run_caps {α : Type} {umax sz : Nat} (xs : List α) :
    ∀ (v : Vector α) (l : List α) (w : Vector α), Coupled v l →
      ((v.length = 0 ∧ v.capacity = 0) ∨
        (1 ≤ v.length ∧ v.length ≤ v.capacity ∧
          (v.capacity = 4 ∨ v.capacity < 2 * v.length))) →
      Vector.run_ops umax sz v (xs.map Op.push_back) = .ok w →
      w.length = v.length + xs.length ∧
      ((w.length = 0 ∧ w.capacity = 0) ∨
        (1 ≤ w.length ∧ w.length ≤ w.capacity ∧
          (w.capacity = 4 ∨ w.capacity < 2 * w.length))) := by
  induction xs with
  | nil =>
      intro v l w h hq hr
      simp only [List.map_nil, Vector.run_ops] at hr
      injection hr with hv
      subst hv
      exact ⟨by simp, hq⟩
  | cons x xs ih =>
      intro v l w h hq hr
      simp only [List.map_cons, Vector.run_ops] at hr
      cases hop : v.run_op umax sz (Op.push_back x) with
      | error e => rw [hop] at hr; simp at hr
      | ok u =>
          rw [hop] at hr
          have hu : Coupled u (specStep l (.push_back x)) := coupled_run_op h hop
          obtain ⟨hlen1, hcapd⟩ := push_cap_step h hop
          have IH := ih u (specStep l (.push_back x)) w hu (by omega) hr
          refine ⟨?_, IH.2⟩
          rw [List.length_cons]
          omega

/-- Iterated `pop_back` on an already empty vector is the identity. -/
theorem pop_back_run_of_length_zero {α : Type} (v : Vector α) (n : Nat)
    (h : v.length = 0) : (v.pop_back_run n).2 = v := by
  induction n with
  | zero => rfl
  | succ n ih =>
      show ((v.pop_back).2.pop_back_run n).2 = v
      rw [pop_back_of_length_zero v h]
      exact ih

/-- Iterated `pop_back` never touches the allocation or the capacity. -/
theorem pop_back_run_frame {α : Type} (n : Nat) :
    ∀ v : Vector α, ((v.pop_back_run n).2.memory = v.memory ∧
      (v.pop_back_run n).2.capacity = v.capacity) := by
  induction n with
  | zero => intro v; exact ⟨rfl, rfl⟩
  | succ n ih =>
      intro v
      have h1 := pop_back_frame v
      have h2 := ih (v.pop_back).2
      exact ⟨h2.1.trans h1.1, h2.2.trans h1.2⟩

/-- Draining a non-empty vector to length 0 through `pop_back` leaves
both cursors reset to `none`. -/
theorem pop_back_drain {α : Type} (n : Nat) :
    ∀ (v : Vector α) (l : List α), Coupled v l → 0 < v.length →
      (v.pop_back_run n).2.length = 0 →
      (v.pop_back_run n).2.front = none ∧ (v.pop_back_run n).2.back = none := by
  induction n with
  | zero =>
      intro v l h hpos hz
      have hz2 : v.length = 0 := hz
      exact absurd hz2 (by omega)
  | succ n ih =>
      intro v l h hpos hz
      have hcb := coupled_pop_back h
      by_cases hz2 : (v.pop_back).2.length = 0
      · have hreset := hcb.2.2 hpos hz2
        have hfix : (((v.pop_back).2).pop_back_run n).2 = (v.pop_back).2 :=
          pop_back_run_of_length_zero _ n hz2
        show ((v.pop_back).2.pop_back_run n).2.front = none ∧
          ((v.pop_back).2.pop_back_run n).2.back = none
        rw [hfix]
        exact hreset
      · have hpos2 : 0 < (v.pop_back).2.length := by omega
        exact ih (v.pop_back).2 l.dropLast hcb.2.1 hpos2 hz

/-- Iterated `pop_front` on the coupled state yields exactly the logical
contents followed by one recoverable miss. -/
theorem coupled_pop_front_run {α : Type} (l : List α) :
    ∀ v : Vector α, Coupled v l →
      (v.pop_front_run (l.length + 1)).1 = l.map some ++ [none] := by
  induction l with
  | nil =>
      intro v h
      have hz : v.length = 0 := by rw [h.len_eq]; rfl
      show (v.pop_front).1 :: ((v.pop_front).2.pop_front_run 0).1 = [none]
      rw [pop_front_of_length_zero v hz]
      rfl
  | cons x xs ih =>
      intro v h
      have hcf := coupled_pop_front h
      show (v.pop_front).1 :: ((v.pop_front).2.pop_front_run (xs.length + 1)).1
        = (x :: xs).map some ++ [none]
      rw [hcf.1, ih _ hcf.2]
      simp

/-- Claim C1: for every sequence of push_back, pop_front and pop_back
operations starting from a new Vector and every index `i < length`,
`get i` returns the `i`-th element of the current front-to-back logical
order (the reference deque run of the same operations), including after
growth events. -/
theorem claim_C1 {α : Type} (umax sz : Nat) (ops : List (Op α)) (v : Vector α)
    (h : Vector.run_ops umax sz (Vector.new α) ops = .ok v) (i : Nat)
    (hi : i < v.length) :
    v.get i = (specRun [] ops)[i]? ∧ v.length = (specRun [] ops).length := by
  have hc := coupled_run_ops ops _ [] v (coupled_new α) h
  exact ⟨coupled_get hc i hi, hc.len_eq⟩

/-- Witness for C1 on the trace push 1, push 2, pop_front, push 3 and
index 1. -/
theorem claim_C1_witness :
    Vector.run_ops usizeMax 1 (Vector.new Nat)
        [.push_back 1, .push_back 2, .pop_front, .push_back 3]
      = .ok (Vector.mk (some [some 1, some 2, some 3, none]) (some 1) (some 2) 2 4) ∧
    1 < (Vector.mk (some [some 1, some 2, some 3, none]) (some 1) (some 2) 2 4).length ∧
    ((Vector.mk (some [some 1, some 2, some 3, none]) (some 1) (some 2) 2 4).get 1
        = (specRun [] [Op.push_back 1, Op.push_back 2, Op.pop_front, Op.push_back 3])[1]? ∧
      (Vector.mk (some [some 1, some 2, some 3, none]) (some 1) (some 2) 2 4).length
        = (specRun [] [Op.push_back 1, Op.push_back 2, Op.pop_front, Op.push_back 3]).length) :=
  ⟨rfl, by decide,
    claim_C1 usizeMax 1 [Op.push_back 1, Op.push_back 2, Op.pop_front, Op.push_back 3]
      (Vector.mk (some [some 1, some 2, some 3, none]) (some 1) (some 2) 2 4)
      rfl 1 (by decide)⟩

/-- Claim C2: after `N ≥ 1` pushes on a new vector (non-zero-sized
elements, no overflow), `len()` is `N` and the capacity is the least
member of the chain `0, 4, 8, 16, …` that is at least `N`. -/
theorem claim_C2 {α : Type} (umax sz : Nat) (xs : List α) (hne : xs ≠ [])
    (w : Vector α)
    (h : Vector.run_ops umax sz (Vector.new α) (xs.map Op.push_back) = .ok w) :
    w.len = xs.length ∧ xs.length ≤ w.capacity ∧ (∃ k, w.capacity = 4 * 2 ^ k) ∧
    ∀ m, (m = 0 ∨ ∃ k, m = 4 * 2 ^ k) → xs.length ≤ m → w.capacity ≤ m := by
  have h0 := push_run_caps xs (Vector.new α) [] w (coupled_new α) (Or.inl ⟨rfl, rfl⟩) h
  have hcoup := coupled_run_ops (xs.map Op.push_back) _ [] w (coupled_new α) h
  have hxs1 : 1 ≤ xs.length := by
    cases xs with
    | nil => exact absurd rfl hne
    | cons a as => simp
  have hlen : w.length = xs.length := by
    have h1 := h0.1
    simp [Vector.new] at h1
    exact h1
  rcases h0.2 with ⟨hz, _⟩ | ⟨h1, h2, h3⟩
  · omega
  · rcases hcoup.cap_shape with hc0 | ⟨k, hk⟩
    · omega
    · refine ⟨show w.length = xs.length from hlen, by omega, ⟨k, hk⟩, ?_⟩
      intro m hm hmge
      rcases hm with rfl | ⟨j, rfl⟩
      · omega
      · rcases h3 with hc4 | hlt2
        · have h2j : 1 ≤ 2 ^ j := Nat.one_le_two_pow
          omega
        · have hck : 4 * 2 ^ k < 2 * (4 * 2 ^ j) := by omega
          have h2 : 2 ^ k < 2 ^ (j + 1) := by rw [pow_succ]; omega
          have hkj : k ≤ j := by
            by_contra hkj
            push_neg at hkj
            have hmono : 2 ^ (j + 1) ≤ 2 ^ k := Nat.pow_le_pow_right (by norm_num) (by omega)
            omega
          have hle : (2:Nat) ^ k ≤ 2 ^ j := Nat.pow_le_pow_right (by norm_num) hkj
          omega

/-- Witness for C2 with five pushes: length 5, capacity 8. -/
theorem claim_C2_witness :
    ([10, 20, 30, 40, 50] : List Nat) ≠ [] ∧
    Vector.run_ops usizeMax 1 (Vector.new Nat)
        (([10, 20, 30, 40, 50] : List Nat).map Op.push_back)
      = .ok (Vector.mk
          (some [some 10, some 20, some 30, some 40, some 50, none, none, none])
          (some 0) (some 4) 5 8) ∧
    ((Vector.mk
          (some [some 10, some 20, some 30, some 40, some 50, none, none, none])
          (some 0) (some 4) 5 8).len = ([10, 20, 30, 40, 50] : List Nat).length ∧
      ([10, 20, 30, 40, 50] : List Nat).length
        ≤ (Vector.mk
            (some [some 10, some 20, some 30, some 40, some 50, none, none, none])
            (some 0) (some 4) 5 8).capacity ∧
      (∃ k, (Vector.mk
          (some [some 10, some 20, some 30, some 40, some 50, none, none, none])
          (some 0) (some 4) 5 8).capacity = 4 * 2 ^ k) ∧
      ∀ m, (m = 0 ∨ ∃ k, m = 4 * 2 ^ k) → ([10, 20, 30, 40, 50] : List Nat).length ≤ m →
        (Vector.mk
          (some [some 10, some 20, some 30, some 40, some 50, none, none, none])
          (some 0) (some 4) 5 8).capacity ≤ m) :=
  ⟨by decide, rfl,
    claim_C2 usizeMax 1 [10, 20, 30, 40, 50] (by decide)
      (Vector.mk
        (some [some 10, some 20, some 30, some 40, some 50, none, none, none])
        (some 0) (some 4) 5 8) rfl⟩

/-- Claim C3 counterexample: after push_back 5 then pop_front the length
is 0 yet both cursors are still `Some` — so front/back are NOT `None`
exactly when the length is 0. -/
theorem claim_C3_counterexample :
    Vector.run_ops usizeMax 1 (Vector.new Nat) [.push_back 5, .pop_front]
      = .ok (Vector.mk (some [some 5, none, none, none]) (some 1) (some 0) 0 4) ∧
    (Vector.mk (some [some 5, none, none, none]) (some 1) (some 0) 0 4).length = 0 ∧
    (Vector.mk (some [some 5, none, none, none]) (some 1) (some 0) 0 4).front ≠ none ∧
    (Vector.mk (some [some 5, none, none, none]) (some 1) (some 0) 0 4).back ≠ none := by
  refine ⟨rfl, rfl, by decide, by decide⟩

/-- Claim C3 (amended): in every reachable state `front_index` and
`back_index` are both `Some` or both `None`, and when they are `None`
the length is 0; the converse fails (see the counterexample): a
`pop_front` drain leaves stale `Some` cursors at length 0. -/
theorem claim_C3_amended {α : Type} (v : Vector α) (hR : v.Reachable) :
    (v.front = none ↔ v.back = none) ∧ (v.front = none → v.length = 0) := by
  obtain ⟨l, hc⟩ := reachable_coupled hR
  rcases hc.cursors with ⟨hf, hb, hl⟩ | ⟨f, b, hf, hb, _, _, _⟩
  · exact ⟨by simp [hf, hb], fun _ => hl⟩
  · constructor
    · simp [hf, hb]
    · intro hcontr
      rw [hf] at hcontr
      simp at hcontr

/-- Witness for the amended C3 on a state drained through pop_back. -/
theorem claim_C3_amended_witness :
    Vector.Reachable (Vector.mk (some [some 5, some 6, none, none]) none none 0 4) ∧
    (((Vector.mk (some [some 5, some 6, none, none]) none none 0 4 : Vector Nat).front = none ↔
        (Vector.mk (some [some 5, some 6, none, none]) none none 0 4 : Vector Nat).back = none) ∧
      ((Vector.mk (some [some 5, some 6, none, none]) none none 0 4 : Vector Nat).front = none →
        (Vector.mk (some [some 5, some 6, none, none]) none none 0 4 : Vector Nat).length = 0)) :=
  ⟨⟨[.push_back 5, .push_back 6, .pop_back, .pop_back], rfl⟩,
    claim_C3_amended (Vector.mk (some [some 5, some 6, none, none]) none none 0 4)
      ⟨[.push_back 5, .push_back 6, .pop_back, .pop_back], rfl⟩⟩

/-- Claim C4 counterexample: on the empty vector the pre-push capacity
is 0, push_back then pop_back returns the element and restores the
length, but the capacity afterwards is 4, not the pre-push 0 — so
push;pop_back does not leave the capacity at its pre-push value. -/
theorem claim_C4_counterexample :
    (Vector.new Nat).capacity = 0 ∧
    Vector.push_back usizeMax 1 (Vector.new Nat) 5
      = .ok (Vector.mk (some [some 5, none, none, none]) (some 0) (some 0) 1 4) ∧
    (Vector.pop_back
      (Vector.mk (some [some 5, none, none, none]) (some 0) (some 0) 1 4)).1 = some 5 ∧
    (Vector.pop_back
      (Vector.mk (some [some 5, none, none, none]) (some 0) (some 0) 1 4)).2.length = 0 ∧
    (Vector.pop_back
      (Vector.mk (some [some 5, none, none, none]) (some 0) (some 0) 1 4)).2.capacity = 4 ∧
    (4 : Nat) ≠ 0 :=
  ⟨rfl, rfl, rfl, rfl, rfl, by decide⟩

/-- Claim C4 (amended): for every reachable state, push_back(x)
immediately followed by pop_back() returns Some(x) and leaves the length
at its pre-push value and the capacity at its post-push value — equal to
the pre-push capacity whenever the push had spare room — and the
capacity never decreases across any operation. -/
theorem claim_C4_amended {α : Type} (v : Vector α) (hR : v.Reachable)
    (umax sz : Nat) (x : α) (v' : Vector α)
    (hp : v.push_back umax sz x = .ok v') :
    (v'.pop_back).1 = some x ∧
    (v'.pop_back).2.length = v.length ∧
    (v'.pop_back).2.capacity = v'.capacity ∧
    (v.length < v.capacity → (v'.pop_back).2.capacity = v.capacity) ∧
    v.capacity ≤ (v'.pop_back).2.capacity ∧
    (∀ (op : Op α) (w : Vector α), v.run_op umax sz op = .ok w →
      v.capacity ≤ w.capacity) := by
  obtain ⟨l, hc⟩ := reachable_coupled hR
  have hpush := coupled_push hc hp
  have hpb := coupled_pop_back hpush
  have hframe := pop_back_frame v'
  obtain ⟨hlen1, hcapd⟩ := push_cap_step hc hp
  refine ⟨?_, ?_, hframe.2, ?_, ?_, ?_⟩
  · rw [hpb.1, List.getLast?_concat]
  · have hlval := hpb.2.1.len_eq
    rw [List.dropLast_concat] at hlval
    rw [hlval]
    exact hc.len_eq.symm
  · intro hlt
    rw [hframe.2]
    rcases hcapd with ⟨hc0, _⟩ | ⟨_, hcap⟩ | ⟨heq, _, _⟩
    · omega
    · exact hcap
    · omega
  · rw [hframe.2]
    rcases hcapd with ⟨hc0, hc4⟩ | ⟨_, hcap⟩ | ⟨_, hcpos, hc2⟩ <;> omega
  · intro op w hop
    cases op with
    | push_back y =>
        obtain ⟨_, hcd⟩ := push_cap_step hc hop
        rcases hcd with ⟨hc0, hc4⟩ | ⟨_, hcap⟩ | ⟨_, hcpos, hc2⟩ <;> omega
    | pop_front =>
        injection hop with hw
        subst hw
        rw [(pop_front_frame v).2.1]
    | pop_back =>
        injection hop with hw
        subst hw
        rw [(pop_back_frame v).2]

/-- Witness for the amended C4: push 9 onto a reachable one-element
vector, then pop_back. -/
theorem claim_C4_amended_witness :
    Vector.Reachable (Vector.mk (some [some 7, none, none, none]) (some 0) (some 0) 1 4) ∧
    Vector.push_back usizeMax 1
        (Vector.mk (some [some 7, none, none, none]) (some 0) (some 0) 1 4) 9
      = .ok (Vector.mk (some [some 7, some 9, none, none]) (some 0) (some 1) 2 4) ∧
    ((Vector.pop_back
        (Vector.mk (some [some 7, some 9, none, none]) (some 0) (some 1) 2 4)).1 = some 9 ∧
      (Vector.pop_back
        (Vector.mk (some [some 7, some 9, none, none]) (some 0) (some 1) 2 4)).2.length
        = (Vector.mk (some [some 7, none, none, none]) (some 0) (some 0) 1 4 : Vector Nat).length ∧
      (Vector.pop_back
        (Vector.mk (some [some 7, some 9, none, none]) (some 0) (some 1) 2 4)).2.capacity
        = (Vector.mk (some [some 7, some 9, none, none]) (some 0) (some 1) 2 4 : Vector Nat).capacity ∧
      ((Vector.mk (some [some 7, none, none, none]) (some 0) (some 0) 1 4 : Vector Nat).length
          < (Vector.mk (some [some 7, none, none, none]) (some 0) (some 0) 1 4 : Vector Nat).capacity →
        (Vector.pop_back
          (Vector.mk (some [some 7, some 9, none, none]) (some 0) (some 1) 2 4)).2.capacity
          = (Vector.mk (some [some 7, none, none, none]) (some 0) (some 0) 1 4 : Vector Nat).capacity) ∧
      (Vector.mk (some [some 7, none, none, none]) (some 0) (some 0) 1 4 : Vector Nat).capacity
        ≤ (Vector.pop_back
            (Vector.mk (some [some 7, some 9, none, none]) (some 0) (some 1) 2 4)).2.capacity ∧
      (∀ (op : Op Nat) (w : Vector Nat),
        Vector.run_op usizeMax 1
          (Vector.mk (some [some 7, none, none, none]) (some 0) (some 0) 1 4) op = .ok w →
        (Vector.mk (some [some 7, none, none, none]) (some 0) (some 0) 1 4 : Vector Nat).capacity
          ≤ w.capacity)) :=
  ⟨⟨[.push_back 7], rfl⟩, rfl,
    claim_C4_amended (Vector.mk (some [some 7, none, none, none]) (some 0) (some 0) 1 4)
      ⟨[.push_back 7], rfl⟩ usizeMax 1 9
      (Vector.mk (some [some 7, some 9, none, none]) (some 0) (some 1) 2 4) rfl⟩

/-- Claim C5: pushing x1..xn onto a new vector and then popping from the
front n+1 times yields Some x1, …, Some xn in order (FIFO) followed by
the recoverable empty result None. -/
theorem claim_C5 {α : Type} (umax sz : Nat) (xs : List α) (w : Vector α)
    (h : Vector.run_ops umax sz (Vector.new α) (xs.map Op.push_back) = .ok w) :
    (w.pop_front_run (xs.length + 1)).1 = xs.map some ++ [none] := by
  have hc := coupled_run_ops (xs.map Op.push_back) _ [] w (coupled_new α) h
  rw [specRun_pushes xs [], List.nil_append] at hc
  exact coupled_pop_front_run xs w hc

/-- Witness for C5 with three pushes. -/
theorem claim_C5_witness :
    Vector.run_ops usizeMax 1 (Vector.new Nat)
        (([7, 8, 9] : List Nat).map Op.push_back)
      = .ok (Vector.mk (some [some 7, some 8, some 9, none]) (some 0) (some 2) 3 4) ∧
    ((Vector.mk (some [some 7, some 8, some 9, none])
        (some 0) (some 2) 3 4).pop_front_run (([7, 8, 9] : List Nat).length + 1)).1
      = ([7, 8, 9] : List Nat).map some ++ [none] :=
  ⟨rfl,
    claim_C5 usizeMax 1 [7, 8, 9]
      (Vector.mk (some [some 7, some 8, some 9, none]) (some 0) (some 2) 3 4) rfl⟩

/-- Claim C6: on a reachable state with length ≥ 1, pop_back reads the
slot at back_index, wraps the cursor to capacity-1 from 0 (observable
while elements remain), decrements the length and resets both cursors to
None exactly when the length reaches 0; pop_front reads at front_index,
advances front_index modulo the capacity, decrements the length and does
NOT reset the cursors to None when the length reaches 0. -/
theorem claim_C6 {α : Type} (v : Vector α) (hR : v.Reachable) (hlen : 1 ≤ v.length) :
    ∃ f b buf, v.front = some f ∧ v.back = some b ∧ v.memory = some buf ∧
      (v.pop_back).1 = buf.getD b none ∧
      (v.pop_back).2.length = v.length - 1 ∧
      ((v.pop_back).2.front = none ∧ (v.pop_back).2.back = none ↔ v.length - 1 = 0) ∧
      (0 < v.length - 1 → (v.pop_back).2.front = some f ∧
        (v.pop_back).2.back = some (if b > 0 then b - 1 else v.capacity - 1)) ∧
      (v.pop_front).1 = buf.getD f none ∧
      (v.pop_front).2.front = some ((f + 1) % v.capacity) ∧
      (v.pop_front).2.back = some b ∧
      (v.pop_front).2.length = v.length - 1 := by
  obtain ⟨l, hc⟩ := reachable_coupled hR
  obtain ⟨mem, fr, bk, len, cap⟩ := v
  simp only at hlen
  rcases hc.cursors with ⟨_, _, hl0⟩ | ⟨f, b, hf, hb, hfc, hbc, hrel⟩
  · simp at hl0; omega
  · simp at hf hb
    subst hf
    subst hb
    simp only at hfc hbc
    have hcap0 : 0 < cap := Nat.lt_of_le_of_lt (Nat.zero_le f) hfc
    cases mem with
    | none =>
        have hc0 : cap = 0 := hc.mem_null.mp rfl
        omega
    | some buf =>
        have hgt : len > 0 := by omega
        have hpf : Vector.pop_front (Vector.mk (some buf) (some f) (some b) len cap)
            = (buf.getD f none,
               Vector.mk (some buf) (some ((f + 1) % cap)) (some b) (len - 1) cap) := by
          simp only [Vector.pop_front, if_pos hgt]
        by_cases hz : len - 1 = 0
        · have hpb : Vector.pop_back (Vector.mk (some buf) (some f) (some b) len cap)
              = (buf.getD b none, Vector.mk (some buf) none none (len - 1) cap) := by
            simp only [Vector.pop_back, if_pos hgt, if_pos hz]
          refine ⟨f, b, buf, rfl, rfl, rfl, by rw [hpb], by rw [hpb], ?_, ?_,
            by rw [hpf], by rw [hpf], by rw [hpf], by rw [hpf]⟩
          · rw [hpb]
            exact ⟨fun _ => hz, fun _ => ⟨rfl, rfl⟩⟩
          · intro hpos
            have hpos2 : 0 < len - 1 := hpos
            omega
        · have hnb : (if b > 0 then some (b - 1)
              else if 1 ≤ cap then some (cap - 1) else none)
              = some (if b > 0 then b - 1 else cap - 1) := by
            by_cases hbpos : b > 0
            · simp [hbpos]
            · rw [if_neg hbpos, if_neg hbpos, if_pos (show 1 ≤ cap by omega)]
          have hpb : Vector.pop_back (Vector.mk (some buf) (some f) (some b) len cap)
              = (buf.getD b none,
                 Vector.mk (some buf) (some f)
                   (some (if b > 0 then b - 1 else cap - 1)) (len - 1) cap) := by
            simp only [Vector.pop_back, if_pos hgt, if_neg hz, hnb]
          refine ⟨f, b, buf, rfl, rfl, rfl, by rw [hpb], by rw [hpb], ?_, ?_,
            by rw [hpf], by rw [hpf], by rw [hpf], by rw [hpf]⟩
          · rw [hpb]
            constructor
            · intro hcontr
              simp at hcontr
            · intro hcontr
              exact absurd hcontr hz
          · intro _
            rw [hpb]
            exact ⟨rfl, rfl⟩

/-- Witness for C6 on a reachable two-element vector. -/
theorem claim_C6_witness :
    Vector.Reachable (Vector.mk (some [some 3, some 4, none, none]) (some 0) (some 1) 2 4) ∧
    1 ≤ (Vector.mk (some [some 3, some 4, none, none]) (some 0) (some 1) 2 4 : Vector Nat).length ∧
    (∃ f b buf,
      (Vector.mk (some [some 3, some 4, none, none]) (some 0) (some 1) 2 4 : Vector Nat).front = some f ∧
      (Vector.mk (some [some 3, some 4, none, none]) (some 0) (some 1) 2 4 : Vector Nat).back = some b ∧
      (Vector.mk (some [some 3, some 4, none, none]) (some 0) (some 1) 2 4 : Vector Nat).memory = some buf ∧
      ((Vector.mk (some [some 3, some 4, none, none]) (some 0) (some 1) 2 4 : Vector Nat).pop_back).1
        = buf.getD b none ∧
      ((Vector.mk (some [some 3, some 4, none, none]) (some 0) (some 1) 2 4 : Vector Nat).pop_back).2.length
        = (Vector.mk (some [some 3, some 4, none, none]) (some 0) (some 1) 2 4 : Vector Nat).length - 1 ∧
      (((Vector.mk (some [some 3, some 4, none, none]) (some 0) (some 1) 2 4 : Vector Nat).pop_back).2.front = none ∧
        ((Vector.mk (some [some 3, some 4, none, none]) (some 0) (some 1) 2 4 : Vector Nat).pop_back).2.back = none ↔
        (Vector.mk (some [some 3, some 4, none, none]) (some 0) (some 1) 2 4 : Vector Nat).length - 1 = 0) ∧
      (0 < (Vector.mk (some [some 3, some 4, none, none]) (some 0) (some 1) 2 4 : Vector Nat).length - 1 →
        ((Vector.mk (some [some 3, some 4, none, none]) (some 0) (some 1) 2 4 : Vector Nat).pop_back).2.front = some f ∧
        ((Vector.mk (some [some 3, some 4, none, none]) (some 0) (some 1) 2 4 : Vector Nat).pop_back).2.back
          = some (if b > 0 then b - 1
              else (Vector.mk (some [some 3, some 4, none, none]) (some 0) (some 1) 2 4 : Vector Nat).capacity - 1)) ∧
      ((Vector.mk (some [some 3, some 4, none, none]) (some 0) (some 1) 2 4 : Vector Nat).pop_front).1
        = buf.getD f none ∧
      ((Vector.mk (some [some 3, some 4, none, none]) (some 0) (some 1) 2 4 : Vector Nat).pop_front).2.front
        = some ((f + 1) % (Vector.mk (some [some 3, some 4, none, none]) (some 0) (some 1) 2 4 : Vector Nat).capacity) ∧
      ((Vector.mk (some [some 3, some 4, none, none]) (some 0) (some 1) 2 4 : Vector Nat).pop_front).2.back = some b ∧
      ((Vector.mk (some [some 3, some 4, none, none]) (some 0) (some 1) 2 4 : Vector Nat).pop_front).2.length
        = (Vector.mk (some [some 3, some 4, none, none]) (some 0) (some 1) 2 4 : Vector Nat).length - 1) :=
  ⟨⟨[.push_back 3, .push_back 4], rfl⟩, by decide,
    claim_C6 (Vector.mk (some [some 3, some 4, none, none]) (some 0) (some 1) 2 4)
      ⟨[.push_back 3, .push_back 4], rfl⟩ (by decide)⟩

/-- Claim C7: get and the indexing operator perform one lookup with two
severities — below the length both return the same element (get as
`some`, the operator as a success), at or above the length get is the
recoverable miss `none` while the operator is the fatal out-of-bounds
error. -/
theorem claim_C7 {α : Type} (v : Vector α) (hR : v.Reachable) (i : Nat) :
    (i < v.length → ∃ x, v.get i = some x ∧ v.index i = .ok x) ∧
    (v.length ≤ i → v.get i = none ∧ v.index i = .error "Out of bounds access") := by
  obtain ⟨l, hc⟩ := reachable_coupled hR
  constructor
  · intro hi
    have hg := coupled_get hc i hi
    have hi2 : i < l.length := by rw [← hc.len_eq]; exact hi
    cases hgx : l[i]? with
    | none =>
        rw [List.getElem?_eq_getElem hi2] at hgx
        simp at hgx
    | some x =>
        refine ⟨x, ?_, ?_⟩
        · rw [hg, hgx]
        · simp [Vector.index, hg, hgx]
  · intro hi
    have hnone := get_oob v i hi
    exact ⟨hnone, by simp [Vector.index, hnone]⟩

/-- Witness for C7 on a two-element vector at index 1. -/
theorem claim_C7_witness :
    Vector.Reachable (Vector.mk (some [some 3, some 4, none, none]) (some 0) (some 1) 2 4) ∧
    ((1 < (Vector.mk (some [some 3, some 4, none, none]) (some 0) (some 1) 2 4 : Vector Nat).length →
      ∃ x, (Vector.mk (some [some 3, some 4, none, none]) (some 0) (some 1) 2 4 : Vector Nat).get 1 = some x ∧
        (Vector.mk (some [some 3, some 4, none, none]) (some 0) (some 1) 2 4 : Vector Nat).index 1 = .ok x) ∧
    ((Vector.mk (some [some 3, some 4, none, none]) (some 0) (some 1) 2 4 : Vector Nat).length ≤ 1 →
      (Vector.mk (some [some 3, some 4, none, none]) (some 0) (some 1) 2 4 : Vector Nat).get 1 = none ∧
      (Vector.mk (some [some 3, some 4, none, none]) (some 0) (some 1) 2 4 : Vector Nat).index 1
        = .error "Out of bounds access")) :=
  ⟨⟨[.push_back 3, .push_back 4], rfl⟩,
    claim_C7 (Vector.mk (some [some 3, some 4, none, none]) (some 0) (some 1) 2 4)
      ⟨[.push_back 3, .push_back 4], rfl⟩ 1⟩

/-- Claim C8: push_back on a full vector (length = capacity > 0) is
fatal exactly when doubling the capacity overflows `usize`; otherwise it
allocates a doubled block, re-linearizes the old window to offset 0,
writes the new element at index `length` and sets front 0, back
`length`, length + 1, capacity doubled. -/
theorem claim_C8 {α : Type} (v : Vector α) (hR : v.Reachable) (umax sz : Nat)
    (hsz : sz ≠ 0) (hfull : v.length = v.capacity) (hpos : 0 < v.capacity) (x : α) :
    ((∃ e, v.push_back umax sz x = .error e) ↔ umax < v.capacity * 2) ∧
    (v.capacity * 2 ≤ umax →
      ∃ f buf v', v.front = some f ∧ v.memory = some buf ∧
        v.push_back umax sz x = .ok v' ∧
        v'.capacity = v.capacity * 2 ∧ v'.front = some 0 ∧
        v'.back = some v.length ∧ v'.length = v.length + 1 ∧
        ∃ nbuf, v'.memory = some nbuf ∧ nbuf.length = v.capacity * 2 ∧
          (∀ j, j < v.capacity →
            nbuf.getD j none = buf.getD ((f + j) % v.capacity) none) ∧
          nbuf.getD v.length none = some x) := by
  obtain ⟨l, hc⟩ := reachable_coupled hR
  obtain ⟨mem, fr, bk, len, cap⟩ := v
  have hfull2 : len = cap := hfull
  have hpos2 : 0 < cap := hpos
  rcases hc.cursors with ⟨_, _, hl0⟩ | ⟨f, b, hf, hb, hfc, hbc, hrel⟩
  · simp at hl0; omega
  · simp at hf hb
    subst hf
    subst hb
    simp only at hfc hbc
    cases mem with
    | none =>
        have hc0 : cap = 0 := hc.mem_null.mp rfl
        omega
    | some buf =>
        have hbl : buf.length = cap := hc.buf_len buf rfl
        have hlt : ¬(len < cap) := by omega
        have hlinlen : (if f = 0 then buf else buf.drop f ++ buf.take f).length = cap := by
          by_cases h0 : f = 0
          · rw [if_pos h0, hbl]
          · rw [if_neg h0]
            simp [hbl]
            omega
        constructor
        · constructor
          · rintro ⟨e, he⟩
            by_contra hnot
            push_neg at hnot
            have hnot2 : cap * 2 ≤ umax := hnot
            rw [show Vector.push_back umax sz
                (Vector.mk (some buf) (some f) (some b) len cap) x
                = .ok (Vector.mk
                    (some (((if f = 0 then buf else buf.drop f ++ buf.take f)
                      ++ List.replicate (cap * 2 - cap) none).set len (some x)))
                    (some 0) (some len) (len + 1) (cap * 2)) from by
              simp only [Vector.push_back, if_neg hsz, if_neg hlt, if_pos hnot2]] at he
            simp at he
          · intro hov
            have hov2 : umax < cap * 2 := hov
            have hncap : ¬(cap * 2 ≤ umax) := by omega
            exact ⟨"usize vector capacity reached its limit", by
              simp only [Vector.push_back, if_neg hsz, if_neg hlt, if_neg hncap]⟩
        · intro hov
          have hov2 : cap * 2 ≤ umax := hov
          have hpush : Vector.push_back umax sz
              (Vector.mk (some buf) (some f) (some b) len cap) x
              = .ok (Vector.mk
                  (some (((if f = 0 then buf else buf.drop f ++ buf.take f)
                    ++ List.replicate (cap * 2 - cap) none).set len (some x)))
                  (some 0) (some len) (len + 1) (cap * 2)) := by
            simp only [Vector.push_back, if_neg hsz, if_neg hlt, if_pos hov2]
          refine ⟨f, buf, _, rfl, rfl, hpush, rfl, rfl, rfl, rfl, _, rfl, ?_, ?_, ?_⟩
          · simp [List.length_append, hlinlen]
            omega
          · intro j hj
            have hj2 : j < cap := hj
            rw [getD_set_ne _ _ (by omega)]
            rw [getD_append_left _ _ _ (by rw [hlinlen]; omega)]
            have := lin_getD buf f (by rw [hbl]; exact hfc) j (by rw [hbl]; exact hj)
            rwa [hbl] at this
          · rw [getD_set_self _ _ _
              (by rw [List.length_append, hlinlen, List.length_replicate]; omega)]

/-- Witness for C8 on a full reachable vector of four elements. -/
theorem claim_C8_witness :
    Vector.Reachable (Vector.mk (some [some 1, some 2, some 3, some 4]) (some 0) (some 3) 4 4) ∧
    (1 : Nat) ≠ 0 ∧
    (Vector.mk (some [some 1, some 2, some 3, some 4]) (some 0) (some 3) 4 4 : Vector Nat).length
      = (Vector.mk (some [some 1, some 2, some 3, some 4]) (some 0) (some 3) 4 4 : Vector Nat).capacity ∧
    0 < (Vector.mk (some [some 1, some 2, some 3, some 4]) (some 0) (some 3) 4 4 : Vector Nat).capacity ∧
    (((∃ e, Vector.push_back usizeMax 1
          (Vector.mk (some [some 1, some 2, some 3, some 4]) (some 0) (some 3) 4 4) 9 = .error e) ↔
        usizeMax < (Vector.mk (some [some 1, some 2, some 3, some 4]) (some 0) (some 3) 4 4 : Vector Nat).capacity * 2) ∧
      ((Vector.mk (some [some 1, some 2, some 3, some 4]) (some 0) (some 3) 4 4 : Vector Nat).capacity * 2 ≤ usizeMax →
        ∃ f buf v',
          (Vector.mk (some [some 1, some 2, some 3, some 4]) (some 0) (some 3) 4 4 : Vector Nat).front = some f ∧
          (Vector.mk (some [some 1, some 2, some 3, some 4]) (some 0) (some 3) 4 4 : Vector Nat).memory = some buf ∧
          Vector.push_back usizeMax 1
            (Vector.mk (some [some 1, some 2, some 3, some 4]) (some 0) (some 3) 4 4) 9 = .ok v' ∧
          v'.capacity
            = (Vector.mk (some [some 1, some 2, some 3, some 4]) (some 0) (some 3) 4 4 : Vector Nat).capacity * 2 ∧
          v'.front = some 0 ∧
          v'.back = some (Vector.mk (some [some 1, some 2, some 3, some 4]) (some 0) (some 3) 4 4 : Vector Nat).length ∧
          v'.length = (Vector.mk (some [some 1, some 2, some 3, some 4]) (some 0) (some 3) 4 4 : Vector Nat).length + 1 ∧
          ∃ nbuf, v'.memory = some nbuf ∧
            nbuf.length
              = (Vector.mk (some [some 1, some 2, some 3, some 4]) (some 0) (some 3) 4 4 : Vector Nat).capacity * 2 ∧
            (∀ j, j < (Vector.mk (some [some 1, some 2, some 3, some 4]) (some 0) (some 3) 4 4 : Vector Nat).capacity →
              nbuf.getD j none = buf.getD ((f + j)
                % (Vector.mk (some [some 1, some 2, some 3, some 4]) (some 0) (some 3) 4 4 : Vector Nat).capacity) none) ∧
            nbuf.getD
              (Vector.mk (some [some 1, some 2, some 3, some 4]) (some 0) (some 3) 4 4 : Vector Nat).length none
              = some 9)) :=
  ⟨⟨[.push_back 1, .push_back 2, .push_back 3, .push_back 4], rfl⟩, by decide, rfl, by decide,
    claim_C8 (Vector.mk (some [some 1, some 2, some 3, some 4]) (some 0) (some 3) 4 4)
      ⟨[.push_back 1, .push_back 2, .push_back 3, .push_back 4], rfl⟩ usizeMax 1
      (by decide) rfl (by decide) 9⟩

/-- Claim C9: draining a reachable non-empty vector to length 0 through
pop_back leaves the capacity and the allocation untouched, and the next
push_back writes slot 0 of the existing block (no new allocation) and
restores front = back = Some 0 with length 1. -/
theorem claim_C9 {α : Type} (v : Vector α) (hR : v.Reachable) (hlen : 0 < v.length)
    (n : Nat) (hdrain : ((v.pop_back_run n).2).length = 0) (umax sz : Nat)
    (hsz : sz ≠ 0) (x : α) :
    ∃ buf, v.memory = some buf ∧
      (v.pop_back_run n).2.capacity = v.capacity ∧
      (v.pop_back_run n).2.memory = some buf ∧
      (v.pop_back_run n).2.push_back umax sz x
        = .ok (Vector.mk (some (buf.set 0 (some x))) (some 0) (some 0) 1 v.capacity) := by
  obtain ⟨l, hc⟩ := reachable_coupled hR
  have hcap0 : 0 < v.capacity := by have := hc.len_le; omega
  have hmem : ∃ buf, v.memory = some buf := by
    cases hm : v.memory with
    | none =>
        have := hc.mem_null.mp hm
        omega
    | some buf => exact ⟨buf, rfl⟩
  obtain ⟨buf, hbuf⟩ := hmem
  have hframe := pop_back_run_frame n v
  have hreset := pop_back_drain n v l hc hlen hdrain
  refine ⟨buf, hbuf, hframe.2, by rw [hframe.1, hbuf], ?_⟩
  generalize hw : (v.pop_back_run n).2 = w at hdrain hreset hframe
  obtain ⟨wm, wf, wb, wl, wc⟩ := w
  have hwl : wl = 0 := hdrain
  have hwf : wf = none := hreset.1
  have hwb : wb = none := hreset.2
  have hwm : wm = some buf := by
    have h1 : wm = v.memory := hframe.1
    rw [hbuf] at h1
    exact h1
  have hwc : wc = v.capacity := hframe.2
  subst hwl
  subst hwf
  subst hwb
  subst hwm
  subst hwc
  simp only [Vector.push_back, if_neg hsz]
  rw [if_pos (show (0:Nat) < v.capacity from hcap0)]

/-- Witness for C9: drain a reachable two-element vector with two
pop_back calls, then push 9. -/
theorem claim_C9_witness :
    Vector.Reachable (Vector.mk (some [some 3, some 4, none, none]) (some 0) (some 1) 2 4) ∧
    0 < (Vector.mk (some [some 3, some 4, none, none]) (some 0) (some 1) 2 4 : Vector Nat).length ∧
    (((Vector.mk (some [some 3, some 4, none, none]) (some 0) (some 1) 2 4 :
        Vector Nat).pop_back_run 2).2).length = 0 ∧
    (1 : Nat) ≠ 0 ∧
    (∃ buf,
      (Vector.mk (some [some 3, some 4, none, none]) (some 0) (some 1) 2 4 : Vector Nat).memory
        = some buf ∧
      ((Vector.mk (some [some 3, some 4, none, none]) (some 0) (some 1) 2 4 :
          Vector Nat).pop_back_run 2).2.capacity
        = (Vector.mk (some [some 3, some 4, none, none]) (some 0) (some 1) 2 4 : Vector Nat).capacity ∧
      ((Vector.mk (some [some 3, some 4, none, none]) (some 0) (some 1) 2 4 :
          Vector Nat).pop_back_run 2).2.memory = some buf ∧
      (((Vector.mk (some [some 3, some 4, none, none]) (some 0) (some 1) 2 4 :
          Vector Nat).pop_back_run 2).2).push_back usizeMax 1 9
        = .ok (Vector.mk (some (buf.set 0 (some 9))) (some 0) (some 0) 1
            (Vector.mk (some [some 3, some 4, none, none]) (some 0) (some 1) 2 4 : Vector Nat).capacity)) :=
  ⟨⟨[.push_back 3, .push_back 4], rfl⟩, by decide, rfl, by decide,
    claim_C9 (Vector.mk (some [some 3, some 4, none, none]) (some 0) (some 1) 2 4)
      ⟨[.push_back 3, .push_back 4], rfl⟩ (by decide) 2 rfl usizeMax 1 (by decide) 9⟩

/-- Claim C10: after a pop_front drain (length 0 with stale Some
cursors), the next push_back writes at slot (back+1) mod capacity, which
equals the stale front slot, so the resulting state has front = back =
that slot, length 1, and get 0 returns the pushed element — the un-reset
cursors do not corrupt the logical order. -/
theorem claim_C10 {α : Type} (v : Vector α) (hR : v.Reachable) (hlen : v.length = 0)
    (f : Nat) (hf : v.front = some f) (umax sz : Nat) (hsz : sz ≠ 0) (x : α) :
    ∃ b buf, v.back = some b ∧ v.memory = some buf ∧ (b + 1) % v.capacity = f ∧
      v.push_back umax sz x
        = .ok (Vector.mk (some (buf.set f (some x))) (some f) (some f) 1 v.capacity) ∧
      (Vector.mk (some (buf.set f (some x))) (some f) (some f) 1 v.capacity).get 0
        = some x := by
  obtain ⟨l, hc⟩ := reachable_coupled hR
  obtain ⟨mem, fr, bk, len, cap⟩ := v
  have hlen2 : len = 0 := hlen
  subst hlen2
  rcases hc.cursors with ⟨hf0, _, _⟩ | ⟨f', b, hf', hb, hfc, hbc, hrel⟩
  · have hfr : fr = none := hf0
    have hfr2 : fr = some f := hf
    rw [hfr] at hfr2
    simp at hfr2
  · simp at hf' hb
    subst hf'
    subst hb
    simp only at hfc hbc hrel
    have hff : f' = f := by
      have : some f' = some f := hf
      injection this
    subst hff
    have hcap0 : 0 < cap := Nat.lt_of_le_of_lt (Nat.zero_le f') hfc
    have hbf : (b + 1) % cap = f' := by
      have h2 : (b + 1) % cap = (f' + 0) % cap := hrel
      simpa [Nat.mod_eq_of_lt hfc] using h2
    cases mem with
    | none =>
        have hc0 : cap = 0 := hc.mem_null.mp rfl
        omega
    | some buf =>
        have hbl : buf.length = cap := hc.buf_len buf rfl
        refine ⟨b, buf, rfl, rfl, hbf, ?_, ?_⟩
        · simp only [Vector.push_back, if_neg hsz]
          rw [if_pos (show (0:Nat) < cap from hcap0)]
          have hni : (if b + 1 < cap then b + 1 else (b + 1) % cap) = f' := by
            by_cases hcb : b + 1 < cap
            · rw [if_pos hcb, ← hbf, Nat.mod_eq_of_lt hcb]
            · rw [if_neg hcb]
              exact hbf
          rw [hni]
        · simp only [Vector.get]
          rw [if_pos (⟨by omega, by omega⟩ : (1:Nat) > 0 ∧ 0 < 1)]
          rw [Nat.add_zero, Nat.mod_eq_of_lt hfc,
            getD_set_self _ _ _ (by rw [hbl]; exact hfc)]

/-- Witness for C10: push 7, drain it with pop_front (stale cursors
front = Some 1, back = Some 0, length 0), then push 9. -/
theorem claim_C10_witness :
    Vector.Reachable (Vector.mk (some [some 7, none, none, none]) (some 1) (some 0) 0 4) ∧
    (Vector.mk (some [some 7, none, none, none]) (some 1) (some 0) 0 4 : Vector Nat).length = 0 ∧
    (Vector.mk (some [some 7, none, none, none]) (some 1) (some 0) 0 4 : Vector Nat).front = some 1 ∧
    (1 : Nat) ≠ 0 ∧
    (∃ b buf,
      (Vector.mk (some [some 7, none, none, none]) (some 1) (some 0) 0 4 : Vector Nat).back = some b ∧
      (Vector.mk (some [some 7, none, none, none]) (some 1) (some 0) 0 4 : Vector Nat).memory = some buf ∧
      (b + 1) % (Vector.mk (some [some 7, none, none, none]) (some 1) (some 0) 0 4 : Vector Nat).capacity = 1 ∧
      Vector.push_back usizeMax 1
          (Vector.mk (some [some 7, none, none, none]) (some 1) (some 0) 0 4) 9
        = .ok (Vector.mk (some (buf.set 1 (some 9))) (some 1) (some 1) 1
            (Vector.mk (some [some 7, none, none, none]) (some 1) (some 0) 0 4 : Vector Nat).capacity) ∧
      (Vector.mk (some (buf.set 1 (some 9))) (some 1) (some 1) 1
          (Vector.mk (some [some 7, none, none, none]) (some 1) (some 0) 0 4 : Vector Nat).capacity).get 0
        = some 9) :=
  ⟨⟨[.push_back 7, .pop_front], rfl⟩, rfl, rfl, by decide,
    claim_C10 (Vector.mk (some [some 7, none, none, none]) (some 1) (some 0) 0 4)
      ⟨[.push_back 7, .pop_front], rfl⟩ rfl 1 rfl usizeMax 1 (by decide) 9⟩

end DsaSport
